import Mathlib

/-!
Verification of the endpoint-establishment and wire-codec library
(`rust-existing-instance`, src/lib.rs) via a shallow embedding.

Bytes are modelled as `Nat` (with range hypotheses `< 256` where the Rust
type system guarantees `u8`), `usize` as `Nat` with width 8 bytes
(64-bit target, `usize < 2^64` guaranteed by the Rust type), byte streams
as `List Nat`.  Fallible reads return `Option`; the two unrecoverable
conditions of the code (`unwrap` on write failure, `panic` on an unknown
discriminant) are distinguished constructors of the result types.
-/

namespace ExistingInstance

/-- Little-endian byte encoding of `n` on `k` bytes; models
`usize::to_le_bytes` (the low `8*k` bits of `n`). -/
def toLeBytes : Nat → Nat → List Nat
  | 0, _ => []
  | k + 1, n => n % 256 :: toLeBytes k (n / 256)

/-- Little-endian byte decoding; models `usize::from_le_bytes`. -/
def fromLeBytes : List Nat → Nat
  | [] => 0
  | b :: r => b + 256 * fromLeBytes r

theorem toLeBytes_length (k n : Nat) : (toLeBytes k n).length = k := by
  induction k generalizing n with
  | zero => rfl
  | succ k ih => simp [toLeBytes, ih]

theorem toLeBytes_lt (k n : Nat) : ∀ b ∈ toLeBytes k n, b < 256 := by
  induction k generalizing n with
  | zero => intro b hb; simp [toLeBytes] at hb
  | succ k ih =>
    intro b hb
    simp only [toLeBytes, List.mem_cons] at hb
    rcases hb with h | h
    · subst h; exact Nat.mod_lt _ (by norm_num)
    · exact ih _ b h

theorem fromLeBytes_toLeBytes (k n : Nat) :
    fromLeBytes (toLeBytes k n) = n % 256 ^ k := by
  induction k generalizing n with
  | zero => simp [toLeBytes, fromLeBytes, Nat.mod_one]
  | succ k ih =>
    simp only [toLeBytes, fromLeBytes, ih]
    rw [pow_succ', Nat.mod_mul]

theorem toLeBytes_fromLeBytes (l : List Nat) (hb : ∀ b ∈ l, b < 256) :
    toLeBytes l.length (fromLeBytes l) = l := by
  induction l with
  | nil => rfl
  | cons b r ih =>
    have hblt : b < 256 := hb b (List.mem_cons_self b r)
    have h1 : (b + 256 * fromLeBytes r) % 256 = b := by omega
    have h2 : (b + 256 * fromLeBytes r) / 256 = fromLeBytes r := by omega
    simp only [List.length_cons, toLeBytes, fromLeBytes, h1, h2]
    rw [ih (fun x hx => hb x (List.mem_cons_of_mem b hx))]

theorem fromLeBytes_lt (l : List Nat) (hb : ∀ b ∈ l, b < 256) :
    fromLeBytes l < 256 ^ l.length := by
  induction l with
  | nil => simp [fromLeBytes]
  | cons b r ih =>
    have hblt : b < 256 := hb b (List.mem_cons_self b r)
    have := ih (fun x hx => hb x (List.mem_cons_of_mem b hx))
    simp only [fromLeBytes, List.length_cons, pow_succ]
    omega

/-- Message between two processes; models the `repr(u8)` enum `Msg`.
`Num` carries a `usize` (a `Nat` that the Rust type keeps below `2^64`);
`Bytes` a `Vec<u8>`; `String` the UTF-8 bytes of a Rust `String`. -/
inductive Msg
  | Num (n : Nat)
  | Bytes (bs : List Nat)
  | String (s : List Nat)
  | Nudge
  deriving DecidableEq

/-- The wire tag of each variant; models `Msg::discriminant`, which reads
the `repr(u8)` tag byte (0 = Num, 1 = Bytes, 2 = String, 3 = Nudge),
reimplemented as the explicit exhaustive mapping. -/
def Msg.discriminant : Msg → Nat
  | .Num _ => 0
  | .Bytes _ => 1
  | .String _ => 2
  | .Nudge => 3

/-- The exact byte sequence `Msg::write` emits when every underlying
write succeeds: tag byte, then the variant payload
(`write_usize` is 8-byte little-endian). -/
def Msg.writeBytes : Msg → List Nat
  | .Num n => 0 :: toLeBytes 8 n
  | .Bytes bs => 1 :: (toLeBytes 8 bs.length ++ bs)
  | .String s => 2 :: (toLeBytes 8 s.length ++ s)
  | .Nudge => [3]

/-- Models `read_u8`: `read_exact` of one byte, EOF is an I/O error. -/
def read_u8 : List Nat → Option (Nat × List Nat)
  | [] => none
  | b :: r => some (b, r)

/-- Models `read_usize`: `read_exact` into an 8-byte buffer, then
`usize::from_le_bytes`. -/
def read_usize (l : List Nat) : Option (Nat × List Nat) :=
  if 8 ≤ l.length then some (fromLeBytes (l.take 8), l.drop 8) else none

/-- Models `read_vec`: read a `usize` length, then `read_exact` that many
bytes. -/
def read_vec (l : List Nat) : Option (List Nat × List Nat) :=
  match read_usize l with
  | none => none
  | some (len, r) =>
      if len ≤ r.length then some (r.take len, r.drop len) else none

/-- Whether a byte is a UTF-8 continuation byte (0x80 to 0xBF). -/
def isCont (b : Nat) : Bool := decide (0x80 ≤ b ∧ b < 0xC0)

/-- One step of UTF-8 scanning, modelling the byte-sequence classification
of Rust's UTF-8 validation as used by `String::from_utf8_lossy`: returns
whether a well-formed scalar starts at the head of the list and how many
bytes it spans; on a malformed head returns the length of the maximal
subpart of the ill-formed sequence (the bytes the lossy conversion
replaces by one replacement character). -/
def utf8Step : List Nat → Bool × Nat
  | [] => (true, 0)
  | b0 :: r =>
    if b0 < 0x80 then (true, 1)
    else if b0 < 0xC2 then (false, 1)
    else if b0 < 0xE0 then
      match r with
      | [] => (false, 1)
      | b1 :: _ => if isCont b1 then (true, 2) else (false, 1)
    else if b0 < 0xF0 then
      match r with
      | [] => (false, 1)
      | b1 :: r2 =>
        if (b0 = 0xE0 ∧ 0xA0 ≤ b1 ∧ b1 < 0xC0) ∨
           (0xE1 ≤ b0 ∧ b0 ≤ 0xEC ∧ isCont b1 = true) ∨
           (b0 = 0xED ∧ 0x80 ≤ b1 ∧ b1 < 0xA0) ∨
           (0xEE ≤ b0 ∧ isCont b1 = true) then
          match r2 with
          | [] => (false, 2)
          | b2 :: _ => if isCont b2 then (true, 3) else (false, 2)
        else (false, 1)
    else if b0 < 0xF5 then
      match r with
      | [] => (false, 1)
      | b1 :: r2 =>
        if (b0 = 0xF0 ∧ 0x90 ≤ b1 ∧ b1 < 0xC0) ∨
           (0xF1 ≤ b0 ∧ b0 ≤ 0xF3 ∧ isCont b1 = true) ∨
           (b0 = 0xF4 ∧ 0x80 ≤ b1 ∧ b1 < 0x90) then
          match r2 with
          | [] => (false, 2)
          | b2 :: r3 =>
            if isCont b2 then
              match r3 with
              | [] => (false, 3)
              | b3 :: _ => if isCont b3 then (true, 4) else (false, 3)
            else (false, 2)
        else (false, 1)
    else (false, 1)

/-- UTF-8 encoding of U+FFFD, the replacement character. -/
def replacementBytes : List Nat := [0xEF, 0xBF, 0xBD]

/-- Fuelled worker for `utf8Lossy`; fuel bounds the number of scan steps
(the byte length suffices since every step consumes at least one byte). -/
def utf8LossyAux : Nat → List Nat → List Nat
  | 0, _ => []
  | fuel + 1, l =>
    match l with
    | [] => []
    | _ :: _ =>
      (if (utf8Step l).1 then l.take (utf8Step l).2 else replacementBytes) ++
        utf8LossyAux fuel (l.drop (utf8Step l).2)

/-- Models `String::from_utf8_lossy(bytes).into_owned()` at the byte
level: well-formed scalars are copied, each maximal ill-formed subpart
becomes the replacement character. -/
def utf8Lossy (l : List Nat) : List Nat := utf8LossyAux l.length l

/-- Fuelled worker for `Utf8Valid`. -/
def utf8ValidAux : Nat → List Nat → Bool
  | 0, l => l.isEmpty
  | fuel + 1, l =>
    match l with
    | [] => true
    | _ :: _ => (utf8Step l).1 && utf8ValidAux fuel (l.drop (utf8Step l).2)

/-- Whether a byte list is well-formed UTF-8 (the invariant of a Rust
`String`'s bytes). -/
def Utf8Valid (l : List Nat) : Bool := utf8ValidAux l.length l

theorem utf8Step_pos (b : Nat) (r : List Nat) : 1 ≤ (utf8Step (b :: r)).2 := by
  simp only [utf8Step]
  repeat' first
    | split
    | simp

theorem utf8LossyAux_of_valid (fuel : Nat) :
    ∀ l : List Nat, l.length ≤ fuel → utf8ValidAux fuel l = true →
      utf8LossyAux fuel l = l := by
  induction fuel with
  | zero =>
    intro l hl _
    have : l = [] := List.length_eq_zero.mp (Nat.le_zero.mp hl)
    subst this
    rfl
  | succ fuel ih =>
    intro l hl hv
    match l with
    | [] => rfl
    | b :: r =>
      simp only [utf8ValidAux, Bool.and_eq_true] at hv
      simp only [utf8LossyAux, hv.1, if_true]
      have hpos := utf8Step_pos b r
      have hdrop : ((b :: r).drop (utf8Step (b :: r)).2).length ≤ fuel := by
        simp only [List.length_drop, List.length_cons]
        simp only [List.length_cons] at hl
        omega
      rw [ih _ hdrop hv.2, List.take_append_drop]

/-- A well-formed UTF-8 byte list is unchanged by the lossy conversion. -/
theorem utf8Lossy_of_valid (l : List Nat) (h : Utf8Valid l = true) :
    utf8Lossy l = l :=
  utf8LossyAux_of_valid l.length l le_rfl h

/-- Result of `Msg::read`: success with the remaining stream bytes, an
I/O error propagated by the question-mark operator, or the process abort
of the `panic` branch on an unrecognized discriminant. -/
inductive ReadResult
  | ok (m : Msg) (rest : List Nat)
  | ioErr
  | fatal (d : Nat)
  deriving DecidableEq

/-- Models `Msg::read`: one discriminant byte, then the variant payload;
String payloads go through the lossy UTF-8 conversion; discriminants
other than 0, 1, 2, 3 hit the `panic` arm. -/
def Msg.read (l : List Nat) : ReadResult :=
  match read_u8 l with
  | none => .ioErr
  | some (d, r) =>
    if d = 0 then
      match read_usize r with
      | some (n, r2) => .ok (.Num n) r2
      | none => .ioErr
    else if d = 1 then
      match read_vec r with
      | some (bs, r2) => .ok (.Bytes bs) r2
      | none => .ioErr
    else if d = 2 then
      match read_vec r with
      | some (bs, r2) => .ok (.String (utf8Lossy bs)) r2
      | none => .ioErr
    else if d = 3 then .ok .Nudge r
    else .fatal d

/-- Result of `Stream::recv`: `Some(msg)`, `None` after a logged I/O
error, or the propagated abort from `Msg::read`. -/
inductive RecvResult
  | msg (m : Msg) (rest : List Nat)
  | nothing
  | fatal (d : Nat)
  deriving DecidableEq

/-- Models `Stream::recv` on the stream's pending bytes: `Ok` becomes
`Some`, any I/O error is logged and becomes `None`. -/
def Stream.recv (l : List Nat) : RecvResult :=
  match Msg.read l with
  | .ok m rest => .msg m rest
  | .ioErr => .nothing
  | .fatal d => .fatal d

/-- A writable channel: the bytes written so far, which `write_all` call
(counted from process start) fails, and how many `write_all` calls have
happened. -/
structure WSink where
  written : List Nat
  failAt : Nat → Bool
  calls : Nat
  deriving Inhabited

/-- Models `Write::write_all` on the sink: the call either fails as an
I/O error or appends the bytes. -/
def writeAll (s : WSink) (bs : List Nat) : Option WSink :=
  if s.failAt s.calls then none
  else some ⟨s.written ++ bs, s.failAt, s.calls + 1⟩

/-- Models `write_u8`. -/
def write_u8 (b : Nat) (s : WSink) : Option WSink := writeAll s [b]

/-- Models `write_usize` (8-byte little-endian). -/
def write_usize (n : Nat) (s : WSink) : Option WSink :=
  writeAll s (toLeBytes 8 n)

/-- Result of `Msg::write` / `Stream::send`: the Rust function returns
unit, so the only outcomes are success and the abort of an `unwrap` on a
failed write. -/
inductive SendResult
  | ok (s : WSink)
  | aborted

/-- Models `Msg::write`: write the discriminant byte, then the payload,
each `unwrap` turning a write failure into an abort. -/
def Msg.writeTo (m : Msg) (s : WSink) : SendResult :=
  match write_u8 m.discriminant s with
  | none => .aborted
  | some s1 =>
    match m with
    | .Num n =>
      match write_usize n s1 with
      | none => .aborted
      | some s2 => .ok s2
    | .Bytes bs =>
      match write_usize bs.length s1 with
      | none => .aborted
      | some s2 =>
        match writeAll s2 bs with
        | none => .aborted
        | some s3 => .ok s3
    | .String str =>
      match write_usize str.length s1 with
      | none => .aborted
      | some s2 =>
        match writeAll s2 str with
        | none => .aborted
        | some s3 => .ok s3
    | .Nudge => .ok s1

/-- Models `Stream::send`, which forwards to `Msg::write`. -/
def Stream.send (m : Msg) (s : WSink) : SendResult := Msg.writeTo m s

/-- Number of `write_all` calls `Msg::write` makes for each variant. -/
def numWrites : Msg → Nat
  | .Num _ => 2
  | .Bytes _ => 3
  | .String _ => 3
  | .Nudge => 1

/-- The range invariants the Rust types guarantee for a `Msg` value:
`usize` values and `Vec`/`String` lengths are below `2^64`. -/
def Msg.wf : Msg → Prop
  | .Num n => n < 2 ^ 64
  | .Bytes bs => bs.length < 2 ^ 64
  | .String s => s.length < 2 ^ 64
  | .Nudge => True

/-- The error classification of `std::io::ErrorKind`, restricted to the
kinds the library distinguishes plus a catch-all. -/
inductive IOErrorKind
  | NotFound
  | ConnectionRefused
  | PermissionDenied
  | AddrInUse
  | WouldBlock
  | TimedOut
  | UnexpectedEof
  | Other (code : Nat)
  deriving DecidableEq

/-- Models `interprocess::local_socket::ListenerNonblockingMode`. -/
inductive ListenerNonblockingMode
  | Neither
  | Accept
  | Stream
  | Both
  deriving DecidableEq

/-- Wraps a bound server-side channel handle; models `Listener`. -/
structure Listener where
  handle : Nat
  deriving DecidableEq

/-- Wraps a duplex channel handle; models `Stream`. -/
structure Stream where
  handle : Nat
  deriving DecidableEq

/-- Models `Endpoint`. -/
inductive Endpoint
  | New (l : Listener)
  | Existing (s : Stream)
  deriving DecidableEq

/-- The platform named-channel collaborator: the result of deriving the
namespaced name from an identifier, and the outcome of the n-th connect
and the n-th bind call made by this process. -/
structure Env where
  toNsName : String → Except IOErrorKind String
  connect : Nat → String → Except IOErrorKind Nat
  bind : Nat → String → ListenerNonblockingMode → Except IOErrorKind Nat

/-- How many connect and bind calls have been made on the environment. -/
structure Calls where
  connects : Nat
  binds : Nat
  deriving DecidableEq

/-- One connect attempt: consumes the next connect outcome. -/
def connectOp (env : Env) (c : Calls) (ns : String) :
    Except IOErrorKind Nat × Calls :=
  (env.connect c.connects ns, { c with connects := c.connects + 1 })

/-- One bind attempt: consumes the next bind outcome. -/
def bindOp (env : Env) (c : Calls) (ns : String)
    (mode : ListenerNonblockingMode) : Except IOErrorKind Nat × Calls :=
  (env.bind c.binds ns mode, { c with binds := c.binds + 1 })

/-- The non-blocking mode `establish_endpoint` selects from its flag. -/
def nbMode (nonblocking : Bool) : ListenerNonblockingMode :=
  if nonblocking then .Both else .Neither

/-- Models `establish_endpoint`: derive the namespaced name, attempt one
connect; success means Existing, NotFound or ConnectionRefused means this
process is first and binds a listener at that name, and every other
connect error propagates. -/
def establish_endpoint (env : Env) (c : Calls) (id : String)
    (nonblocking : Bool) : Except IOErrorKind Endpoint × Calls :=
  match env.toNsName id with
  | .error e => (.error e, c)
  | .ok ns =>
    match connectOp env c ns with
    | (Except.ok h, c1) => (.ok (.Existing ⟨h⟩), c1)
    | (Except.error e, c1) =>
      if e = .NotFound ∨ e = .ConnectionRefused then
        match bindOp env c1 ns (nbMode nonblocking) with
        | (Except.ok hl, c2) => (.ok (.New ⟨hl⟩), c2)
        | (Except.error e2, c2) => (.error e2, c2)
      else (.error e, c1)

/-- A listener together with the outcome the platform will give to each
of its successive accept calls. -/
structure ListenerState where
  outcomes : Nat → Except IOErrorKind Nat
  pos : Nat

/-- Models `Listener::accept`: a successful platform accept is wrapped
as a Stream, an error is logged and becomes None; the listener value
itself stays usable either way (accept takes a shared reference). -/
def Listener.accept (L : ListenerState) : Option Stream × ListenerState :=
  match L.outcomes L.pos with
  | .ok h => (some ⟨h⟩, { L with pos := L.pos + 1 })
  | .error _ => (none, { L with pos := L.pos + 1 })

/-- The endpoint the resolver yields on the k-th attempt of a polling
loop, the environment being allowed to change between attempts. -/
def resolveAt (envs : Nat → Env) (id : String) (nonblocking : Bool)
    (k : Nat) : Except IOErrorKind Endpoint :=
  (establish_endpoint (envs k) ⟨0, 0⟩ id nonblocking).1

/-- Result of `wait_to_be_new`; `hung` marks that the observed number of
iterations (the fuel) was exhausted without the loop returning. -/
inductive WaitResult
  | ok (l : Listener)
  | err (e : IOErrorKind)
  | hung
  deriving DecidableEq

/-- Loop body of `wait_to_be_new`, starting at attempt `k`.  Each
iteration resolves once, returns a New listener or propagates an error
immediately, and otherwise sleeps `sleep_ms`; after the sleep of the
k-th iteration the elapsed time is `(k+1) * sleep_ms`, and the loop
times out when that exceeds `timeout_ms`. -/
def wait_go (envs : Nat → Env) (id : String) (nonblocking : Bool)
    (sleep_ms timeout_ms : Nat) : Nat → Nat → WaitResult
  | 0, _ => .hung
  | fuel + 1, k =>
    match resolveAt envs id nonblocking k with
    | .error e => .err e
    | .ok (.New l) => .ok l
    | .ok (.Existing _) =>
      if timeout_ms < (k + 1) * sleep_ms then .err .TimedOut
      else wait_go envs id nonblocking sleep_ms timeout_ms fuel (k + 1)

/-- Models `wait_to_be_new`. -/
def wait_to_be_new (envs : Nat → Env) (id : String) (nonblocking : Bool)
    (sleep_ms timeout_ms fuel : Nat) : WaitResult :=
  wait_go envs id nonblocking sleep_ms timeout_ms fuel 0


/-- C4: encoding Bytes([1,2,3]) yields exactly the 12 bytes
[1, 3,0,0,0,0,0,0,0, 1,2,3] (tag, 8-byte little-endian length 3,
payload); a concrete String case has the same exact layout, and every
String encodes as tag 2, the 8-byte little-endian byte count, then the
UTF-8 bytes. -/
theorem length_honesty :
    Msg.writeBytes (.Bytes [1, 2, 3]) =
      [1, 3, 0, 0, 0, 0, 0, 0, 0, 1, 2, 3] ∧
    Msg.writeBytes (.String [104, 105]) =
      [2, 2, 0, 0, 0, 0, 0, 0, 0, 104, 105] ∧
    ∀ s : List Nat,
      Msg.writeBytes (.String s) = 2 :: (toLeBytes 8 s.length ++ s) :=
  ⟨by decide, by decide, fun _ => rfl⟩

/-- C3: byte 0x00 followed by eight zero bytes decodes to Num(0); the
single byte 0x03 decodes to Nudge consuming nothing further (any trailing
bytes are left untouched); and a first byte of 4 or more lands in the
fatal panic arm, for any trailing bytes, never in the recoverable
I/O-error result. -/
theorem discriminant_stability :
    Msg.read (0 :: List.replicate 8 0) = .ok (.Num 0) [] ∧
    Msg.read [3] = .ok .Nudge [] ∧
    (∀ rest : List Nat, Msg.read (3 :: rest) = .ok .Nudge rest) ∧
    (∀ d : Nat, ∀ rest : List Nat, 4 ≤ d →
      Msg.read (d :: rest) = .fatal d) := by
  refine ⟨by decide, by decide, fun rest => rfl, fun d rest hd => ?_⟩
  simp only [Msg.read, read_u8]
  rw [if_neg (by omega), if_neg (by omega), if_neg (by omega),
    if_neg (by omega)]

/-- Witness for C3 at the concrete discriminant 4. -/
theorem discriminant_stability_witness :
    Msg.read [4] = ReadResult.fatal 4 :=
  discriminant_stability.2.2.2 4 [] (by norm_num)

/-- C6: recv yields no message exactly when decoding fails with an I/O
error (including a short or absent read), and yields the decoded message
exactly when decoding succeeds; no I/O error escapes to the caller. -/
theorem stream_recv_spec (l : List Nat) :
    (Stream.recv l = .nothing ↔ Msg.read l = .ioErr) ∧
    (∀ m rest, Stream.recv l = .msg m rest ↔ Msg.read l = .ok m rest) := by
  cases h : Msg.read l <;> simp [Stream.recv, h]

/-- Witness for C6: an absent read (empty stream) is reported as "no
message". -/
theorem stream_recv_witness : Stream.recv [] = RecvResult.nothing :=
  (stream_recv_spec []).1.mpr rfl


theorem read_usize_encode (n : Nat) (rest : List Nat) :
    read_usize (toLeBytes 8 n ++ rest) = some (n % 2 ^ 64, rest) := by
  have hlen : (toLeBytes 8 n).length = 8 := toLeBytes_length 8 n
  rw [read_usize, if_pos (by simp [List.length_append, hlen]),
    List.take_left' hlen, List.drop_left' hlen, fromLeBytes_toLeBytes]
  norm_num

theorem read_usize_encode_nil (n : Nat) :
    read_usize (toLeBytes 8 n) = some (n % 2 ^ 64, []) := by
  have := read_usize_encode n []
  rwa [List.append_nil] at this

theorem read_vec_encode (bs rest : List Nat) (h : bs.length < 2 ^ 64) :
    read_vec (toLeBytes 8 bs.length ++ (bs ++ rest)) = some (bs, rest) := by
  unfold read_vec
  rw [read_usize_encode, Nat.mod_eq_of_lt h]
  dsimp only
  rw [if_pos (by simp [List.length_append]), List.take_left, List.drop_left]

theorem read_vec_encode_nil (bs : List Nat) (h : bs.length < 2 ^ 64) :
    read_vec (toLeBytes 8 bs.length ++ bs) = some (bs, []) := by
  have := read_vec_encode bs [] h
  rwa [List.append_nil] at this

/-- C1: decoding the bytes produced by encoding returns an equal message
(under the range invariants the Rust types guarantee), where for String
the equality holds whenever the payload is valid UTF-8; and decoding a
String encoding always succeeds, producing the lossy UTF-8 conversion of
the payload rather than failing, even when the payload is not valid
UTF-8. -/
theorem encode_decode_roundtrip :
    (∀ m : Msg, m.wf → (∀ s, m = .String s → Utf8Valid s = true) →
      Msg.read m.writeBytes = .ok m []) ∧
    (∀ s : List Nat, s.length < 2 ^ 64 →
      Msg.read (Msg.writeBytes (.String s)) =
        .ok (.String (utf8Lossy s)) []) := by
  have hstring : ∀ s : List Nat, s.length < 2 ^ 64 →
      Msg.read (Msg.writeBytes (.String s)) =
        .ok (.String (utf8Lossy s)) [] := by
    intro s hlen
    simp only [Msg.writeBytes, Msg.read, read_u8]
    rw [read_vec_encode_nil s hlen]
    simp
  refine ⟨?_, hstring⟩
  intro m hwf hstr
  match m with
  | .Num n =>
    have hn : n < 2 ^ 64 := hwf
    simp only [Msg.writeBytes, Msg.read, read_u8]
    rw [read_usize_encode_nil, Nat.mod_eq_of_lt hn]
    simp
  | .Bytes bs =>
    have hlen : bs.length < 2 ^ 64 := hwf
    simp only [Msg.writeBytes, Msg.read, read_u8]
    rw [read_vec_encode_nil bs hlen]
    simp
  | .String s =>
    have hv : Utf8Valid s = true := hstr s rfl
    rw [hstring s hwf, utf8Lossy_of_valid s hv]
  | .Nudge => decide

/-- Witness for C1 at the edge values named by the claim: zero-valued
Num, empty Bytes, empty String, Nudge, and a non-UTF-8 String payload
(the isolated byte 0xFF decodes lossily instead of failing). -/
theorem encode_decode_roundtrip_witness :
    Msg.read (Msg.writeBytes (.Num 0)) = .ok (.Num 0) [] ∧
    Msg.read (Msg.writeBytes (.Bytes [])) = .ok (.Bytes []) [] ∧
    Msg.read (Msg.writeBytes (.String [])) = .ok (.String []) [] ∧
    Msg.read (Msg.writeBytes .Nudge) = .ok .Nudge [] ∧
    Msg.read (Msg.writeBytes (.String [255])) =
      .ok (.String (utf8Lossy [255])) [] :=
  ⟨encode_decode_roundtrip.1 (.Num 0) (by norm_num [Msg.wf])
      (fun s h => by cases h),
   encode_decode_roundtrip.1 (.Bytes []) (by norm_num [Msg.wf])
      (fun s h => by cases h),
   encode_decode_roundtrip.1 (.String []) (by norm_num [Msg.wf])
      (fun s h => by cases h; rfl),
   encode_decode_roundtrip.1 .Nudge trivial (fun s h => by cases h),
   encode_decode_roundtrip.2 [255] (by norm_num)⟩

theorem pow_256_8 : (256 : Nat) ^ 8 = 2 ^ 64 := by norm_num

theorem read_usize_recon (l : List Nat) (n : Nat) (r : List Nat)
    (hb : ∀ b ∈ l, b < 256) (h : read_usize l = some (n, r)) :
    l = toLeBytes 8 n ++ r ∧ n < 2 ^ 64 := by
  rw [read_usize] at h
  split at h
  case isTrue h8 =>
    simp only [Option.some.injEq, Prod.mk.injEq] at h
    obtain ⟨hn, hr⟩ := h
    have htk : (l.take 8).length = 8 := by
      rw [List.length_take]; omega
    have htl : toLeBytes 8 n = l.take 8 := by
      have hz := toLeBytes_fromLeBytes (l.take 8)
        (fun b hbm => hb b (List.take_subset 8 l hbm))
      rw [htk, hn] at hz
      exact hz
    constructor
    · rw [htl, ← hr, List.take_append_drop]
    · have hz := fromLeBytes_lt (l.take 8)
        (fun b hbm => hb b (List.take_subset 8 l hbm))
      rw [htk, hn, pow_256_8] at hz
      exact hz
  case isFalse => cases h

theorem read_vec_recon (l : List Nat) (bs r : List Nat)
    (hb : ∀ b ∈ l, b < 256) (h : read_vec l = some (bs, r)) :
    l = toLeBytes 8 bs.length ++ (bs ++ r) ∧ bs.length < 2 ^ 64 := by
  unfold read_vec at h
  cases hru : read_usize l with
  | none => rw [hru] at h; cases h
  | some p =>
    obtain ⟨len, r1⟩ := p
    rw [hru] at h
    dsimp only at h
    split at h
    case isTrue hle =>
      simp only [Option.some.injEq, Prod.mk.injEq] at h
      obtain ⟨hbs, hr⟩ := h
      obtain ⟨hl, hlt⟩ := read_usize_recon l len r1 hb hru
      have hlb : bs.length = len := by
        rw [← hbs, List.length_take]; omega
      refine ⟨?_, by omega⟩
      rw [hl, hlb, ← hbs, ← hr, List.take_append_drop]
    case isFalse => cases h

/-- Payload slice of a Bytes/String wire message: the bytes after the
tag and the length prefix, up to the encoded length. -/
def payloadSlice (l : List Nat) : List Nat :=
  (l.drop 9).take (fromLeBytes ((l.drop 1).take 8))

/-- C9: on every byte sequence (of genuine bytes) that decodes
successfully, re-encoding the decoded message reproduces exactly the
consumed prefix; for a String message this needs the encoded payload to
be valid UTF-8, since otherwise the lossy conversion may have replaced
bytes. -/
theorem decode_right_inverse (l rest : List Nat) (m : Msg)
    (hb : ∀ b ∈ l, b < 256)
    (h : Msg.read l = .ok m rest)
    (hs : (∃ s, m = Msg.String s) → Utf8Valid (payloadSlice l) = true) :
    l = m.writeBytes ++ rest := by
  match l with
  | [] => exact absurd h (by simp [Msg.read, read_u8])
  | d :: r =>
    have hbr : ∀ b ∈ r, b < 256 := fun b hbm => hb b (List.mem_cons_of_mem d hbm)
    simp only [Msg.read, read_u8] at h
    rcases Nat.lt_or_ge d 4 with hd4 | hd4
    · interval_cases d
      · norm_num at h
        cases hru : read_usize r with
        | none => rw [hru] at h; cases h
        | some p =>
          obtain ⟨n, r2⟩ := p
          rw [hru] at h
          dsimp only at h
          injection h with h1 h2
          obtain ⟨hl, _⟩ := read_usize_recon r n r2 hbr hru
          subst h1 h2
          simp [Msg.writeBytes, hl]
      · norm_num at h
        cases hrv : read_vec r with
        | none => rw [hrv] at h; cases h
        | some p =>
          obtain ⟨bs, r2⟩ := p
          rw [hrv] at h
          dsimp only at h
          injection h with h1 h2
          obtain ⟨hl, _⟩ := read_vec_recon r bs r2 hbr hrv
          subst h1 h2
          simp [Msg.writeBytes, hl]
      · norm_num at h
        cases hrv : read_vec r with
        | none => rw [hrv] at h; cases h
        | some p =>
          obtain ⟨bs, r2⟩ := p
          rw [hrv] at h
          dsimp only at h
          injection h with h1 h2
          obtain ⟨hl, hlt⟩ := read_vec_recon r bs r2 hbr hrv
          subst h1 h2
          have hps : payloadSlice (2 :: r) = bs := by
            rw [hl]
            simp only [payloadSlice, List.drop_succ_cons, List.drop_zero]
            rw [List.take_left' (toLeBytes_length 8 bs.length),
              List.drop_left' (toLeBytes_length 8 bs.length),
              fromLeBytes_toLeBytes, pow_256_8, Nat.mod_eq_of_lt hlt,
              List.take_left]
          have hv : Utf8Valid bs = true := by
            rw [← hps]
            exact hs ⟨utf8Lossy bs, rfl⟩
          rw [utf8Lossy_of_valid bs hv]
          simp [Msg.writeBytes, hl]
      · norm_num at h
        obtain ⟨h1, h2⟩ := h
        subst h1
        subst h2
        rfl
    · rw [if_neg (by omega), if_neg (by omega), if_neg (by omega),
        if_neg (by omega)] at h
      cases h

/-- Witness for C9 at a concrete Num encoding with a trailing byte. -/
theorem decode_right_inverse_witness :
    [0, 5, 0, 0, 0, 0, 0, 0, 0, 9] =
      Msg.writeBytes (.Num 5) ++ [9] :=
  decode_right_inverse [0, 5, 0, 0, 0, 0, 0, 0, 0, 9] [9] (.Num 5)
    (by decide) (by decide) (fun hex => by obtain ⟨s, hsx⟩ := hex; cases hsx)

/-- Sequencing of `write_all` calls, used to reason uniformly about the
write chain of `Msg::write`. -/
def writeMany : List (List Nat) → WSink → Option WSink
  | [], s => some s
  | bs :: rest, s =>
    match writeAll s bs with
    | none => none
    | some s1 => writeMany rest s1

/-- The per-variant sequence of `write_all` payloads of `Msg::write`. -/
def writePlan : Msg → List (List Nat)
  | .Num n => [[0], toLeBytes 8 n]
  | .Bytes bs => [[1], toLeBytes 8 bs.length, bs]
  | .String s => [[2], toLeBytes 8 s.length, s]
  | .Nudge => [[3]]

theorem writePlan_flatten (m : Msg) : (writePlan m).flatten = m.writeBytes := by
  cases m <;> simp [writePlan, Msg.writeBytes]

theorem writePlan_length (m : Msg) : (writePlan m).length = numWrites m := by
  cases m <;> rfl

theorem writeTo_eq_writeMany (m : Msg) (s : WSink) :
    Msg.writeTo m s =
      match writeMany (writePlan m) s with
      | none => .aborted
      | some s1 => .ok s1 := by
  cases m with
  | Num n =>
    simp only [Msg.writeTo, writePlan, writeMany, write_u8, write_usize,
      Msg.discriminant]
    cases writeAll s [0] with
    | none => rfl
    | some s1 =>
      dsimp only
      cases writeAll s1 (toLeBytes 8 n) <;> rfl
  | Bytes bs =>
    simp only [Msg.writeTo, writePlan, writeMany, write_u8, write_usize,
      Msg.discriminant]
    cases writeAll s [1] with
    | none => rfl
    | some s1 =>
      dsimp only
      cases writeAll s1 (toLeBytes 8 bs.length) with
      | none => rfl
      | some s2 =>
        dsimp only
        cases writeAll s2 bs <;> rfl
  | String str =>
    simp only [Msg.writeTo, writePlan, writeMany, write_u8, write_usize,
      Msg.discriminant]
    cases writeAll s [2] with
    | none => rfl
    | some s1 =>
      dsimp only
      cases writeAll s1 (toLeBytes 8 str.length) with
      | none => rfl
      | some s2 =>
        dsimp only
        cases writeAll s2 str <;> rfl
  | Nudge =>
    simp only [Msg.writeTo, writePlan, writeMany, write_u8, Msg.discriminant]
    cases writeAll s [3] <;> rfl

theorem writeMany_none_iff (L : List (List Nat)) (s : WSink) :
    writeMany L s = none ↔
      ∃ k, k < L.length ∧ s.failAt (s.calls + k) = true := by
  induction L generalizing s with
  | nil => simp [writeMany]
  | cons bs rest ih =>
    simp only [writeMany, writeAll, List.length_cons]
    by_cases h0 : s.failAt s.calls
    · simp only [h0, if_true]
      constructor
      · intro _
        exact ⟨0, by omega, by simpa using h0⟩
      · intro _
        trivial
    · rw [Bool.not_eq_true] at h0
      simp only [h0, Bool.false_eq_true, if_false]
      rw [ih]
      constructor
      · rintro ⟨k, hk, hf⟩
        refine ⟨k + 1, by omega, ?_⟩
        rwa [show s.calls + (k + 1) = s.calls + 1 + k by omega]
      · rintro ⟨k, hk, hf⟩
        match k, hk, hf with
        | 0, hk, hf =>
          rw [Nat.add_zero] at hf
          rw [hf] at h0
          cases h0
        | k + 1, hk, hf =>
          refine ⟨k, by omega, ?_⟩
          rwa [show s.calls + 1 + k = s.calls + (k + 1) by omega]

theorem writeMany_all_ok (L : List (List Nat)) (s : WSink)
    (h : ∀ k, k < L.length → s.failAt (s.calls + k) = false) :
    writeMany L s =
      some ⟨s.written ++ L.flatten, s.failAt, s.calls + L.length⟩ := by
  induction L generalizing s with
  | nil => simp [writeMany]
  | cons bs rest ih =>
    have h0 : s.failAt s.calls = false := by
      simpa using h 0 (by simp)
    have hrest : ∀ k, k < rest.length →
        s.failAt (s.calls + 1 + k) = false := by
      intro k hk
      have hx := h (k + 1) (by simp; omega)
      rwa [show s.calls + (k + 1) = s.calls + 1 + k by omega] at hx
    simp only [writeMany, writeAll, h0, Bool.false_eq_true, if_false]
    rw [ih ⟨s.written ++ bs, s.failAt, s.calls + 1⟩ hrest]
    simp only [Option.some.injEq, WSink.mk.injEq, List.flatten_cons,
      List.length_cons]
    exact ⟨by rw [List.append_assoc], trivial, by omega⟩

/-- C7: sending aborts the call exactly when one of the underlying
writes of the encoding fails (there is no error-returning outcome), and
when every underlying write succeeds the abort branch is unreachable and
exactly the encoded bytes are appended to the channel. -/
theorem stream_send_spec (m : Msg) (s : WSink) :
    (Stream.send m s = .aborted ↔
      ∃ k, k < numWrites m ∧ s.failAt (s.calls + k) = true) ∧
    ((∀ k, k < numWrites m → s.failAt (s.calls + k) = false) →
      Stream.send m s =
        .ok ⟨s.written ++ m.writeBytes, s.failAt, s.calls + numWrites m⟩) := by
  have hpl := writePlan_length m
  constructor
  · rw [Stream.send, writeTo_eq_writeMany]
    cases hw : writeMany (writePlan m) s with
    | none =>
      dsimp only
      constructor
      · intro _
        rw [← hpl]
        exact (writeMany_none_iff _ _).mp hw
      · intro _
        rfl
    | some s1 =>
      dsimp only
      constructor
      · intro hcontra
        cases hcontra
      · rintro ⟨k, hk, hf⟩
        have hcontra : writeMany (writePlan m) s = none :=
          (writeMany_none_iff _ _).mpr ⟨k, by omega, hf⟩
        rw [hcontra] at hw
        cases hw
  · intro hsucc
    rw [Stream.send, writeTo_eq_writeMany,
      writeMany_all_ok _ _ (fun k hk => hsucc k (by omega))]
    rw [writePlan_flatten, hpl]

/-- Witness for C7: on a channel where every write succeeds, a send
appends exactly the encoding and never aborts. -/
theorem stream_send_witness :
    Stream.send Msg.Nudge ⟨[], fun _ => false, 0⟩ =
      SendResult.ok ⟨[] ++ Msg.writeBytes Msg.Nudge, fun _ => false,
        0 + numWrites Msg.Nudge⟩ :=
  (stream_send_spec Msg.Nudge ⟨[], fun _ => false, 0⟩).2 (fun _ _ => rfl)

/-- C2: with a valid derived name, establish_endpoint makes exactly one
connect attempt and decides solely on its outcome: a successful connect
yields Existing around that connection without binding; a NotFound or
ConnectionRefused failure binds a listener at the derived name with the
mode chosen from the non-blocking flag and yields New; any other connect
failure propagates as the error, with no bind attempted. -/
theorem establish_endpoint_spec (env : Env) (c : Calls) (id : String)
    (nonblocking : Bool) (ns : String) (hns : env.toNsName id = .ok ns) :
    (establish_endpoint env c id nonblocking).2.connects = c.connects + 1 ∧
    (∀ h, env.connect c.connects ns = .ok h →
      (establish_endpoint env c id nonblocking).1 = .ok (.Existing ⟨h⟩) ∧
      (establish_endpoint env c id nonblocking).2.binds = c.binds) ∧
    (∀ e, env.connect c.connects ns = .error e →
      ((e = .NotFound ∨ e = .ConnectionRefused) →
        (∀ hl, env.bind c.binds ns (nbMode nonblocking) = .ok hl →
          (establish_endpoint env c id nonblocking).1 = .ok (.New ⟨hl⟩)) ∧
        (∀ e2, env.bind c.binds ns (nbMode nonblocking) = .error e2 →
          (establish_endpoint env c id nonblocking).1 = .error e2)) ∧
      ((e ≠ .NotFound ∧ e ≠ .ConnectionRefused) →
        (establish_endpoint env c id nonblocking).1 = .error e ∧
        (establish_endpoint env c id nonblocking).2.binds = c.binds)) := by
  simp only [establish_endpoint, connectOp, bindOp, hns]
  cases hc : env.connect c.connects ns with
  | ok h =>
    dsimp only
    refine ⟨rfl, fun h' hh => ?_, fun e he => by simp at he⟩
    injection hh with hh'
    subst hh'
    exact ⟨rfl, rfl⟩
  | error e0 =>
    dsimp only
    refine ⟨?_, fun h' hh => by simp at hh, fun e he => ?_⟩
    · by_cases hcl : e0 = .NotFound ∨ e0 = .ConnectionRefused
      · rw [if_pos hcl]
        cases hb : env.bind c.binds ns (nbMode nonblocking) <;> rfl
      · rw [if_neg hcl]
    · injection he with he'
      subst he'
      refine ⟨fun hcl => ?_, fun hne => ?_⟩
      · rw [if_pos hcl]
        refine ⟨fun hl hb => ?_, fun e2 hb => ?_⟩
        · rw [hb]
        · rw [hb]
      · have hcl : ¬(e0 = .NotFound ∨ e0 = .ConnectionRefused) := by
          rintro (hx | hx)
          · exact hne.1 hx
          · exact hne.2 hx
        rw [if_neg hcl]
        exact ⟨rfl, rfl⟩

/-- Witness for C2: with nobody listening (connect refused with
NotFound), the caller becomes the New endpoint around the bound
listener. -/
theorem establish_endpoint_witness :
    (establish_endpoint
        ⟨fun _ => .ok "app", fun _ _ => .error .NotFound, fun _ _ _ => .ok 7⟩
        ⟨0, 0⟩ "app" false).1 = .ok (.New ⟨7⟩) :=
  (((establish_endpoint_spec
        ⟨fun _ => .ok "app", fun _ _ => .error .NotFound, fun _ _ _ => .ok 7⟩
        ⟨0, 0⟩ "app" false "app" rfl).2.2 .NotFound rfl).1
      (Or.inl rfl)).1 7 rfl

/-- C8: accept wraps a successful platform accept as Some Stream, turns
any I/O error into None (after logging) without propagating it, and an
erroring accept leaves the listener usable: the very next accept call
still observes the platform's next outcome and can succeed. -/
theorem listener_accept_spec (L : ListenerState) :
    (∀ h, L.outcomes L.pos = .ok h →
      (Listener.accept L).1 = some ⟨h⟩) ∧
    (∀ e, L.outcomes L.pos = .error e →
      (Listener.accept L).1 = none ∧
      (Listener.accept L).2.outcomes = L.outcomes ∧
      (∀ h2, L.outcomes (L.pos + 1) = .ok h2 →
        (Listener.accept (Listener.accept L).2).1 = some ⟨h2⟩)) := by
  constructor
  · intro h hh
    simp [Listener.accept, hh]
  · intro e he
    refine ⟨by simp [Listener.accept, he], by simp [Listener.accept, he], ?_⟩
    intro h2 hh2
    simp [Listener.accept, he, hh2]

/-- Witness for C8: after one failed accept, the next accept succeeds. -/
theorem listener_accept_witness :
    (Listener.accept
        (Listener.accept
          ⟨fun n => if n = 0 then .error .WouldBlock else .ok 9, 0⟩).2).1 =
      some ⟨9⟩ :=
  ((listener_accept_spec
        ⟨fun n => if n = 0 then .error .WouldBlock else .ok 9, 0⟩).2
      .WouldBlock (by simp)).2.2 9 (by simp)

/-- C5: the waiting loop returns Ok only with a listener from a
resolution that yielded New, with every earlier attempt having observed
Existing (never a false New); an Existing observation within the budget
just continues the loop after the sleep; a resolver error returns
immediately; and an Existing observation once the elapsed time exceeds
the budget returns the TimedOut error. -/
theorem wait_to_be_new_spec (envs : Nat → Env) (id : String) (nb : Bool)
    (sleep_ms timeout_ms : Nat) :
    (∀ fuel k l, wait_go envs id nb sleep_ms timeout_ms fuel k = .ok l →
      ∃ j, k ≤ j ∧ resolveAt envs id nb j = .ok (.New l) ∧
        ∀ i, k ≤ i → i < j →
          ∃ s, resolveAt envs id nb i = .ok (.Existing s)) ∧
    (∀ fuel l, wait_to_be_new envs id nb sleep_ms timeout_ms fuel = .ok l →
      ∃ j, resolveAt envs id nb j = .ok (.New l) ∧
        ∀ i, i < j → ∃ s, resolveAt envs id nb i = .ok (.Existing s)) ∧
    (∀ fuel k s, resolveAt envs id nb k = .ok (.Existing s) →
      ¬(timeout_ms < (k + 1) * sleep_ms) →
      wait_go envs id nb sleep_ms timeout_ms (fuel + 1) k =
        wait_go envs id nb sleep_ms timeout_ms fuel (k + 1)) ∧
    (∀ fuel k e, resolveAt envs id nb k = .error e →
      wait_go envs id nb sleep_ms timeout_ms (fuel + 1) k = .err e) ∧
    (∀ fuel k s, resolveAt envs id nb k = .ok (.Existing s) →
      timeout_ms < (k + 1) * sleep_ms →
      wait_go envs id nb sleep_ms timeout_ms (fuel + 1) k =
        .err .TimedOut) := by
  have main : ∀ fuel k l,
      wait_go envs id nb sleep_ms timeout_ms fuel k = .ok l →
      ∃ j, k ≤ j ∧ resolveAt envs id nb j = .ok (.New l) ∧
        ∀ i, k ≤ i → i < j →
          ∃ s, resolveAt envs id nb i = .ok (.Existing s) := by
    intro fuel
    induction fuel with
    | zero =>
      intro k l h
      cases h
    | succ fuel ih =>
      intro k l h
      simp only [wait_go] at h
      cases hr : resolveAt envs id nb k with
      | error e =>
        rw [hr] at h
        cases h
      | ok ep =>
        cases ep with
        | New l0 =>
          rw [hr] at h
          dsimp only at h
          injection h with h1
          subst h1
          exact ⟨k, le_rfl, hr, fun i hki hik => absurd hik (by omega)⟩
        | Existing s0 =>
          rw [hr] at h
          dsimp only at h
          split at h
          · cases h
          · obtain ⟨j, hkj, hres, hall⟩ := ih (k + 1) l h
            refine ⟨j, by omega, hres, fun i hki hij => ?_⟩
            rcases Nat.eq_or_lt_of_le hki with rfl | hlt
            · exact ⟨s0, hr⟩
            · exact hall i (by omega) hij
  refine ⟨main, ?_, ?_, ?_, ?_⟩
  · intro fuel l h
    obtain ⟨j, _, hres, hall⟩ := main fuel 0 l h
    exact ⟨j, hres, fun i hij => hall i (by omega) hij⟩
  · intro fuel k s hr hto
    simp only [wait_go, hr]
    rw [if_neg hto]
  · intro fuel k e hr
    simp only [wait_go, hr]
  · intro fuel k s hr hto
    simp only [wait_go, hr]
    rw [if_pos hto]

/-- Witness for C5: a run that returns Ok on its first attempt indeed
resolved New there, with no earlier attempt. -/
theorem wait_to_be_new_spec_witness :
    ∃ j, resolveAt
        (fun _ => ⟨fun _ => .ok "a", fun _ _ => .error .ConnectionRefused,
          fun _ _ _ => .ok 5⟩) "a" false j = .ok (.New ⟨5⟩) ∧
      ∀ i, i < j →
        ∃ s, resolveAt
            (fun _ => ⟨fun _ => .ok "a",
              fun _ _ => .error .ConnectionRefused,
              fun _ _ _ => .ok 5⟩) "a" false i = .ok (.Existing s) :=
  (wait_to_be_new_spec
      (fun _ => ⟨fun _ => .ok "a", fun _ _ => .error .ConnectionRefused,
        fun _ _ _ => .ok 5⟩) "a" false 10 100).2.1 1 ⟨5⟩ rfl

/-- C10: the loop always resolves before it ever checks the deadline: a
New outcome on the first attempt is returned whatever the budget
(including a zero budget), and with a zero budget and an Existing first
outcome the loop still makes that one attempt and sleeps the full
positive interval before returning TimedOut. -/
theorem wait_first_attempt (envs : Nat → Env) (id : String) (nb : Bool)
    (sleep_ms fuel : Nat) (hf : 1 ≤ fuel) :
    (∀ timeout_ms l, resolveAt envs id nb 0 = .ok (.New l) →
      wait_to_be_new envs id nb sleep_ms timeout_ms fuel = .ok l) ∧
    (∀ s, resolveAt envs id nb 0 = .ok (.Existing s) → 1 ≤ sleep_ms →
      wait_to_be_new envs id nb sleep_ms 0 fuel = .err .TimedOut) := by
  obtain ⟨f, rfl⟩ : ∃ f, fuel = f + 1 := ⟨fuel - 1, by omega⟩
  constructor
  · intro timeout_ms l h
    simp only [wait_to_be_new, wait_go, h]
  · intro s h hs
    simp only [wait_to_be_new, wait_go, h]
    rw [if_pos (by omega)]

/-- Witness for C10: with a zero timeout budget, a first-attempt New is
still returned. -/
theorem wait_first_attempt_witness :
    wait_to_be_new
      (fun _ => ⟨fun _ => .ok "b", fun _ _ => .error .NotFound,
        fun _ _ _ => .ok 3⟩) "b" false 20 0 1 = .ok ⟨3⟩ :=
  (wait_first_attempt
      (fun _ => ⟨fun _ => .ok "b", fun _ _ => .error .NotFound,
        fun _ _ _ => .ok 3⟩) "b" false 20 1 le_rfl).1 0 ⟨3⟩ rfl
end ExistingInstance
